import Mathlib

/-!
# Magic-number division constants (`cmd/compile/internal/ssa/magic.go`)

A shallow embedding of the strength-reduction constant computations:
`umagicOK`/`umagic` (unsigned division), `smagicOK`/`smagic` (signed
division) and `udivisibleOK`/`udivisible` (divisibility tests), together
with proofs of the correctness and invariant properties stated in the
specification.

Machine integers are modelled as `Nat`/`Int` with explicit reductions
modulo `2 ^ 64` where the Go code works in `uint64` wrap-around
arithmetic; Go's `math/big` arbitrary-precision values are modelled
directly as `Nat`/`Int` (Go `big.Int.Div` is Euclidean division, which
for the positive divisors used here agrees with `Nat` floor division
and `Int.ediv`, the `/` of `Int`).
-/

namespace Magic

/-- Model of the conversion line `d := uint64(c) << (64 - n) >> (64 - n)`
shared by `umagicOK`, `umagic`, `udivisibleOK` and `udivisible`
(magic.go lines 92, 109, 248, 263): the ConstX auxint value `c` (an
`int64`, reinterpreted as a `uint64` bit pattern, i.e. taken modulo
`2 ^ 64`) is reduced to the unsigned `n`-bit constant it represents.
The `uint64` left shift discards the bits shifted beyond bit 63, hence
the reduction `% 2 ^ 64` between the two shifts. -/
def uresidue (n : Nat) (c : Int) : Nat :=
  (((c % (2 ^ 64 : Int)).toNat <<< (64 - n)) % 2 ^ 64) >>> (64 - n)

/-- Go `umagicOK` (magic.go 90-97): `d & (d-1) != 0` rejects `d = 0` and
the powers of two.  (In Go `d - 1` wraps to `2 ^ 64 - 1` when `d = 0`,
while `Nat` subtraction gives `0`; the AND is `0` either way.) -/
def umagicOK (n : Nat) (c : Int) : Bool :=
  let d := uresidue n c
  d &&& (d - 1) != 0

/-- Go `umagicData` (magic.go 99-102): `s` is an `int64`, `m` a `uint64`. -/
structure umagicData where
  s : Int
  m : Nat
  deriving Repr, DecidableEq

/-- Bit-length loop: `bitLenAux f x` is the number of binary digits of
`x`, computed with `f` available halving steps (structural recursion so
that concrete instances evaluate). -/
def bitLenAux : Nat → Nat → Nat
  | 0, _ => 0
  | f + 1, x => if x = 0 then 0 else bitLenAux f (x / 2) + 1

/-- Go `big.Int.BitLen` (the number of binary digits, 0 for value 0),
for the values this file feeds it: every `C` passed to `BitLen` in
magic.go is a `uint64`/`int64` magnitude, hence below `2^64`, so 64
halving steps always suffice (`bitLen x = Nat.size x` for
`x < 2^64`, see `bitLen_eq`). -/
def bitLen (x : Nat) : Nat := bitLenAux 64 x

/-- Go `umagic` (magic.go 107-124).  `C.BitLen()` is `bitLen`,
`M.Div` is `Nat` floor division on the nonnegative operands involved,
`M.SetBit(M, n, 0)` clears bit `n`, and `M.Uint64()` takes the low 64
bits.  The panic branch is modelled separately by `umagicPanics`; this
function returns the record unconditionally. -/
def umagic (n : Nat) (c : Int) : umagicData :=
  let d := uresidue n c
  let s := bitLen d
  let M := (2 ^ (n + s) + d - 1) / d
  let M' := if M.testBit n then M - 2 ^ n else M
  { s := (s : Int), m := M' % 2 ^ 64 }

/-- The guard of the panic in `umagic` (magic.go 118-120): `true` iff
`M.Bit(int(n)) != 1`, i.e. iff the Go code would panic. -/
def umagicPanics (n : Nat) (c : Int) : Bool :=
  let d := uresidue n c
  let s := bitLen d
  let M := (2 ^ (n + s) + d - 1) / d
  ! M.testBit n

/-- Go `smagicOK` (magic.go 150-158): negative `c` is rejected, then
`c & (c-1) != 0` rejects `0` and powers of two.  In the surviving branch
`c ≥ 0`, so the `int64` AND agrees with the `Nat` AND on `c.toNat`
(for `c = 0` Go computes `0 & (-1) = 0` and we compute `0 &&& 0 = 0`). -/
def smagicOK (n : Nat) (c : Int) : Bool :=
  if c < 0 then false
  else c.toNat &&& (c.toNat - 1) != 0

/-- Go `smagicData` (magic.go 160-163). -/
structure smagicData where
  s : Int
  m : Nat
  deriving Repr, DecidableEq

/-- Go `smagic` (magic.go 169-185).  `C.BitLen()` is the bit length of
the absolute value, `M.Div` is Euclidean division (= `Int.ediv`, the
`/` of `Int`), and `M.Uint64()` takes the low 64 bits.  The two panic
branches are modelled separately by `smagicPanics`. -/
def smagic (n : Nat) (c : Int) : smagicData :=
  let s := bitLen c.natAbs - 1
  let M := (2 ^ (n + s) + c - 1) / c
  { s := (s : Int), m := (M % (2 ^ 64 : Int)).toNat }

/-- The guards of the two panics in `smagic` (magic.go 177-182):
`true` iff `M.Bit(int(n)) != 0` or `M.Bit(int(n-1)) == 0`, i.e. iff the
Go code would panic.  (`M > 0` on the domain in question, so its bits
are the bits of `M.toNat`.) -/
def smagicPanics (n : Nat) (c : Int) : Bool :=
  let s := bitLen c.natAbs - 1
  let M := (2 ^ (n + s) + c - 1) / c
  M.toNat.testBit n || ! M.toNat.testBit (n - 1)

/-- Go `udivisibleOK` (magic.go 246-253): same test as `umagicOK`. -/
def udivisibleOK (n : Nat) (c : Int) : Bool :=
  let d := uresidue n c
  d &&& (d - 1) != 0

/-- Trailing-zero loop with `f` available halving steps (structural
recursion so that concrete instances evaluate). -/
def tzAux : Nat → Nat → Nat
  | 0, _ => 0
  | f + 1, x => if x % 2 = 1 then 0 else tzAux f (x / 2) + 1

/-- Go `bits.TrailingZeros64`: the number of trailing zero bits of a
`uint64`, and `64` for input `0` (64 halving steps of an even-or-zero
value each contribute one zero bit, so `tzAux 64 0 = 64` exactly as in
Go). -/
def trailingZeros64 (x : Nat) : Nat := tzAux 64 x

/-- One Newton refinement step `m = m * (2 - m*d0)` of `udivisible`
(magic.go 273-277) in wrap-around `uint64` arithmetic: the product
`m*d0` wraps, the subtraction `2 - m*d0` wraps, and the outer product
wraps. -/
def newtonStep (d0 m : Nat) : Nat :=
  (m * ((2 + 2 ^ 64 - m * d0 % 2 ^ 64) % 2 ^ 64)) % 2 ^ 64

/-- Go `udivisibleData` (magic.go 255-259): `k` is an `int64`, `m` and
`max` are `uint64`. -/
structure udivisibleData where
  k : Int
  m : Nat
  max : Nat
  deriving Repr, DecidableEq

/-- Go `udivisible` (magic.go 261-287): `d0 = d >> k` is the odd part of
`d`, `mask = ^uint64(0) >> (64 - n)`, the inverse `m` is obtained by five
Newton steps from the initial guess `d0` and masked to `n` bits, and
`max = mask / d`. -/
def udivisible (n : Nat) (c : Int) : udivisibleData :=
  let d := uresidue n c
  let k := trailingZeros64 d
  let d0 := d >>> k
  let mask := (2 ^ 64 - 1) >>> (64 - n)
  let m := d0
  let m := newtonStep d0 m
  let m := newtonStep d0 m
  let m := newtonStep d0 m
  let m := newtonStep d0 m
  let m := newtonStep d0 m
  let m := m &&& mask
  let max := mask / d
  { k := (k : Int), m := m, max := max }

/-- `n`-bit right rotation by `k` of an `n`-bit value `v`, as in the
exposed semantics of the divisibility test (magic.go 223-243; the
rotation itself is synthesised by the rewrite rules, outside this
file's source): the low `k` bits wrap around to the top. -/
def rotateRight (n k v : Nat) : Nat :=
  v / 2 ^ k + v % 2 ^ k * 2 ^ (n - k)

/-! ## Bit-level helper lemmas -/

lemma land_self_eq (a : Nat) : a &&& a = a := by
  apply Nat.eq_of_testBit_eq
  intro i
  simp [Nat.testBit_land]

lemma land_two_mul (a b : Nat) : 2 * a &&& 2 * b = 2 * (a &&& b) := by
  apply Nat.eq_of_testBit_eq
  intro i
  have h1 : 2 * a / 2 = a := by omega
  have h2 : 2 * b / 2 = b := by omega
  have h3 : 2 * (a &&& b) / 2 = a &&& b := by omega
  cases i with
  | zero =>
      simp [Nat.testBit_land, Nat.testBit_zero, Nat.mul_mod_right]
  | succ i =>
      simp only [Nat.testBit_land]
      simp only [Nat.testBit_succ, h1, h2, h3, Nat.testBit_land]

lemma land_two_mul_add_one_left (a b : Nat) :
    (2 * a + 1) &&& 2 * b = 2 * (a &&& b) := by
  apply Nat.eq_of_testBit_eq
  intro i
  have h1 : (2 * a + 1) / 2 = a := by omega
  have h2 : 2 * b / 2 = b := by omega
  have h3 : 2 * (a &&& b) / 2 = a &&& b := by omega
  cases i with
  | zero =>
      simp [Nat.testBit_land, Nat.testBit_zero, Nat.mul_mod_right]
  | succ i =>
      simp only [Nat.testBit_land]
      simp only [Nat.testBit_succ, h1, h2, h3, Nat.testBit_land]

lemma land_two_mul_add_one_right (a b : Nat) :
    2 * a &&& (2 * b + 1) = 2 * (a &&& b) := by
  apply Nat.eq_of_testBit_eq
  intro i
  have h1 : 2 * a / 2 = a := by omega
  have h2 : (2 * b + 1) / 2 = b := by omega
  have h3 : 2 * (a &&& b) / 2 = a &&& b := by omega
  cases i with
  | zero =>
      simp [Nat.testBit_land, Nat.testBit_zero, Nat.mul_mod_right]
  | succ i =>
      simp only [Nat.testBit_land]
      simp only [Nat.testBit_succ, h1, h2, h3, Nat.testBit_land]

/-- The power-of-two test used by all three applicability checks:
`d & (d-1) == 0` holds exactly for `0` and the powers of two. -/
lemma land_pred_eq_zero_iff (d : Nat) :
    d &&& (d - 1) = 0 ↔ d = 0 ∨ ∃ j, d = 2 ^ j := by
  induction d using Nat.strong_induction_on with
  | _ d ih =>
    rcases Nat.even_or_odd d with hev | hodd
    · obtain ⟨m, hm⟩ := hev
      have hd2 : d = 2 * m := by omega
      rcases Nat.eq_zero_or_pos m with hm0 | hmpos
      · subst hd2
        simp [hm0]
      · have hsub : d - 1 = 2 * (m - 1) + 1 := by omega
        have hstep : d &&& (d - 1) = 2 * (m &&& (m - 1)) := by
          rw [hsub, hd2, land_two_mul_add_one_right]
        rw [hstep]
        constructor
        · intro h
          have h0 : m &&& (m - 1) = 0 := by omega
          rcases (ih m (by omega)).1 h0 with h' | ⟨j, hj⟩
          · omega
          · exact Or.inr ⟨j + 1, by rw [hd2, hj, pow_succ]; ring⟩
        · rintro (h | ⟨j, hj⟩)
          · omega
          · obtain ⟨j', rfl⟩ : ∃ j', j = j' + 1 := by
              refine ⟨j - 1, ?_⟩
              rcases Nat.eq_zero_or_pos j with rfl | hj0
              · exfalso
                have : d = 1 := by simpa using hj
                omega
              · omega
            have hpow : d = 2 * 2 ^ j' := by rw [hj, pow_succ]; ring
            have hm' : m = 2 ^ j' := by omega
            have : m &&& (m - 1) = 0 := (ih m (by omega)).2 (Or.inr ⟨j', hm'⟩)
            omega
    · obtain ⟨m, hm⟩ := hodd
      have hsub : d - 1 = 2 * m := by omega
      have hstep : d &&& (d - 1) = 2 * m := by
        rw [hsub, hm, land_two_mul_add_one_left, land_self_eq]
      rw [hstep]
      constructor
      · intro h
        exact Or.inr ⟨0, by omega⟩
      · rintro (h | ⟨j, hj⟩)
        · omega
        · cases j with
          | zero =>
              have : d = 1 := by simpa using hj
              omega
          | succ j' =>
              exfalso
              rw [pow_succ] at hj
              omega

lemma testBit_true_of_mem_Ico {a n : Nat} (h1 : 2 ^ n ≤ a) (h2 : a < 2 ^ (n + 1)) :
    a.testBit n = true := by
  have hpos : 0 < 2 ^ n := pow_pos two_pos n
  have hlo : 1 ≤ a / 2 ^ n := (Nat.le_div_iff_mul_le hpos).2 (by omega)
  have hhi : a / 2 ^ n < 2 := by
    apply (Nat.div_lt_iff_lt_mul hpos).2
    calc a < 2 ^ (n + 1) := h2
      _ = 2 * 2 ^ n := by rw [pow_succ]; ring
  have hdiv : a / 2 ^ n = 1 := by omega
  rw [Nat.testBit_to_div_mod, hdiv]
  norm_num

/-! ## The `n`-bit residue -/

lemma int_toNat_mod (a : Int) (K : Nat) (ha : 0 ≤ a) :
    a.toNat % K = (a % (K : Int)).toNat := by
  obtain ⟨m, rfl⟩ := Int.eq_ofNat_of_zero_le ha
  have h : (m : Int) % (K : Int) = ((m % K : Nat) : Int) := by
    push_cast
    ring
  rw [h, Int.toNat_natCast, Int.toNat_natCast]

/-- The conversion `uint64(c) << (64 - n) >> (64 - n)` computes the
unsigned `n`-bit residue of `c`. -/
lemma uresidue_eq (n : Nat) (c : Int) (hn : n ≤ 64) :
    uresidue n c = (c % ((2 ^ n : Nat) : Int)).toNat := by
  unfold uresidue
  have hnonneg : (0 : Int) ≤ c % (2 ^ 64 : Int) := Int.emod_nonneg c (by positivity)
  have hsplit : (2 : Nat) ^ 64 = 2 ^ n * 2 ^ (64 - n) := by
    rw [← pow_add]
    congr 1
    omega
  have hpos : 0 < (2 : Nat) ^ (64 - n) := pow_pos two_pos _
  rw [Nat.shiftLeft_eq, Nat.shiftRight_eq_div_pow, hsplit, Nat.mul_mod_mul_right,
    Nat.mul_div_cancel _ hpos]
  rw [int_toNat_mod _ _ hnonneg, Int.emod_emod_of_dvd]
  have : ((2 ^ n : Nat) : Int) = 2 ^ n := by push_cast; ring
  rw [this]
  exact pow_dvd_pow (2 : Int) hn

lemma uresidue_lt (n : Nat) (c : Int) (hn : n ≤ 64) :
    uresidue n c < 2 ^ n := by
  rw [uresidue_eq n c hn]
  have hK : (0 : Int) < ((2 ^ n : Nat) : Int) := by exact_mod_cast pow_pos two_pos n
  have h1 : c % ((2 ^ n : Nat) : Int) < ((2 ^ n : Nat) : Int) := Int.emod_lt_of_pos c hK
  have h0 : (0 : Int) ≤ c % ((2 ^ n : Nat) : Int) := Int.emod_nonneg c (ne_of_gt hK)
  omega

/-! ## Bit-length facts -/

lemma three_le_of_ok {d : Nat} (hd0 : d ≠ 0) (hnp : ∀ j, d ≠ 2 ^ j) : 3 ≤ d := by
  have h1 : d ≠ 1 := by simpa using hnp 0
  have h2 : d ≠ 2 := by simpa using hnp 1
  omega

lemma two_le_size {d : Nat} (hd : 3 ≤ d) : 2 ≤ Nat.size d := by
  by_contra h
  push_neg at h
  have : d < 2 ^ 1 := lt_of_lt_of_le (Nat.lt_size_self d)
    (Nat.pow_le_pow_right two_pos (by omega))
  omega

lemma two_pow_size_pred_lt {d : Nat} (hd0 : d ≠ 0) (hnp : ∀ j, d ≠ 2 ^ j) :
    2 ^ (Nat.size d - 1) < d := by
  have hs : Nat.size d ≠ 0 := by
    simpa [Nat.size_eq_zero] using hd0
  have h2 : 2 ^ (Nat.size d - 1) ≤ d := Nat.lt_size.1 (by omega)
  exact lt_of_le_of_ne h2 fun h => hnp _ h.symm

lemma size_div_two_add_one {x : Nat} (hx : x ≠ 0) :
    Nat.size (x / 2) + 1 = Nat.size x := by
  have h1 : x / 2 < 2 ^ Nat.size (x / 2) := Nat.lt_size_self _
  apply le_antisymm
  · have h2 : 2 ^ Nat.size (x / 2) ≤ x := by
      rcases Nat.eq_zero_or_pos (x / 2) with h0 | hpos
      · rw [h0]
        simpa [Nat.size_zero] using (by omega : 1 ≤ x)
      · have h3 : Nat.size (x / 2) ≠ 0 := by
          simpa [Nat.size_eq_zero] using (by omega : x / 2 ≠ 0)
        have h4 : 2 ^ (Nat.size (x / 2) - 1) ≤ x / 2 := Nat.lt_size.1 (by omega)
        have h5 : (2 : Nat) ^ Nat.size (x / 2) = 2 * 2 ^ (Nat.size (x / 2) - 1) := by
          rw [← pow_succ']
          congr 1
          omega
        omega
    exact Nat.lt_size.2 h2
  · apply Nat.size_le.2
    have h4 : (2 : Nat) ^ (Nat.size (x / 2) + 1) = 2 * 2 ^ Nat.size (x / 2) := by
      rw [pow_succ]
      ring
    omega

lemma bitLenAux_eq (f : Nat) : ∀ x, x < 2 ^ f → bitLenAux f x = Nat.size x := by
  induction f with
  | zero =>
      intro x hx
      have h0 : x = 0 := by omega
      subst h0
      simp [bitLenAux, Nat.size_zero]
  | succ f ih =>
      intro x hx
      by_cases h0 : x = 0
      · subst h0
        simp [bitLenAux, Nat.size_zero]
      · have hps : (2 : Nat) ^ (f + 1) = 2 * 2 ^ f := by
          rw [pow_succ]
          ring
        have hx2 : x / 2 < 2 ^ f := by omega
        simp only [bitLenAux, if_neg h0]
        rw [ih (x / 2) hx2, size_div_two_add_one h0]

/-- On the `uint64`/`int64` magnitudes magic.go feeds it, `bitLen`
agrees with the mathematical bit length `Nat.size`. -/
lemma bitLen_eq (x : Nat) (hx : x < 2 ^ 64) : bitLen x = Nat.size x :=
  bitLenAux_eq 64 x hx

/-- The trailing-zero count is exact: the quotient by `2^tz` is odd and
the factorization `x = 2^tz * (x / 2^tz)` holds. -/
lemma tzAux_spec (f : Nat) : ∀ x, x ≠ 0 → x < 2 ^ f →
    x / 2 ^ tzAux f x % 2 = 1 ∧ x = 2 ^ tzAux f x * (x / 2 ^ tzAux f x) := by
  induction f with
  | zero =>
      intro x hx hlt
      omega
  | succ f ih =>
      intro x hx hlt
      by_cases hpar : x % 2 = 1
      · simp only [tzAux, if_pos hpar, pow_zero, Nat.div_one, one_mul]
        exact ⟨hpar, by trivial⟩
      · have hps : (2 : Nat) ^ (f + 1) = 2 * 2 ^ f := by
          rw [pow_succ]
          ring
        have hx2 : x / 2 ≠ 0 := by omega
        have hlt2 : x / 2 < 2 ^ f := by omega
        obtain ⟨hodd, hfact⟩ := ih (x / 2) hx2 hlt2
        simp only [tzAux, if_neg hpar]
        have hdd : x / 2 ^ (tzAux f (x / 2) + 1) = x / 2 / 2 ^ tzAux f (x / 2) := by
          rw [Nat.div_div_eq_div_mul]
          congr 1
          rw [pow_succ]
          ring
        constructor
        · rw [hdd]
          exact hodd
        · rw [hdd]
          have hx2e : x = 2 * (x / 2) := by omega
          calc x = 2 * (x / 2) := hx2e
            _ = 2 * (2 ^ tzAux f (x / 2) * (x / 2 / 2 ^ tzAux f (x / 2))) := by
                rw [← hfact]
            _ = 2 ^ (tzAux f (x / 2) + 1) * (x / 2 / 2 ^ tzAux f (x / 2)) := by
                rw [pow_succ]
                ring

lemma clog_eq_size {d : Nat} (hd0 : d ≠ 0) (hnp : ∀ j, d ≠ 2 ^ j) :
    Nat.clog 2 d = Nat.size d := by
  have hlo : 2 ^ (Nat.size d - 1) < d := two_pow_size_pred_lt hd0 hnp
  have hhi : d < 2 ^ Nat.size d := Nat.lt_size_self d
  have hs : 2 ≤ Nat.size d := two_le_size (three_le_of_ok hd0 hnp)
  apply le_antisymm
  · exact (Nat.le_pow_iff_clog_le one_lt_two).1 hhi.le
  · by_contra h
    push_neg at h
    have hle : Nat.clog 2 d ≤ Nat.size d - 1 := by omega
    have : d ≤ 2 ^ (Nat.size d - 1) := (Nat.le_pow_iff_clog_le one_lt_two).2 hle
    omega

/-! ## Core ceiling-division facts -/

/-- The ceiling quotient `⌈a/d⌉ = (a + d - 1) / d` multiplied back by `d`
dominates `a`. -/
lemma ceilDiv_mul_ge {a d : Nat} (hd : 0 < d) (ha : 0 < a) :
    a ≤ (a + d - 1) / d * d := by
  by_contra h
  push_neg at h
  have h1 : (a + d - 1) / d * d + d ≤ a + d - 1 := by omega
  have h2 : (a + d - 1) / d + 1 ≤ (a + d - 1) / d :=
    (Nat.le_div_iff_mul_le hd).2 (by rw [add_mul, one_mul]; omega)
  omega

/-- The key floor-division identity behind the magic-number method: if
`M` over-approximates `2^e / d` closely enough relative to `x`, then
dividing `x * M` by `2^e` computes `x / d` exactly. -/
lemma magic_floor (d M e x : Nat) (hd : 0 < d)
    (h1 : 2 ^ e ≤ M * d) (h2 : x * (M * d - 2 ^ e) < (d - x % d) * 2 ^ e) :
    x * M / 2 ^ e = x / d := by
  have he : 0 < 2 ^ e := pow_pos two_pos e
  have hx : x / d * d + x % d = x := Nat.div_add_mod' x d
  have hr : x % d < d := Nat.mod_lt x hd
  have hlow : x / d * 2 ^ e ≤ x * M := by
    have key : x / d * 2 ^ e * d ≤ x * M * d := by
      calc x / d * 2 ^ e * d = x / d * d * 2 ^ e := by ring
        _ ≤ x * 2 ^ e := Nat.mul_le_mul_right _ (by omega)
        _ ≤ x * (M * d) := Nat.mul_le_mul_left _ h1
        _ = x * M * d := by ring
    exact Nat.le_of_mul_le_mul_right key hd
  have hup : x * M < (x / d + 1) * 2 ^ e := by
    have expand : x * (M * d) = x * 2 ^ e + x * (M * d - 2 ^ e) := by
      have h3 : 2 ^ e + (M * d - 2 ^ e) = M * d := by omega
      rw [← Nat.mul_add, h3]
    have key : x * M * d < (x / d + 1) * 2 ^ e * d := by
      have step1 : x * (M * d) < x * 2 ^ e + (d - x % d) * 2 ^ e := by
        rw [expand]
        omega
      have step2 : x * 2 ^ e + (d - x % d) * 2 ^ e = (x + (d - x % d)) * 2 ^ e :=
        (add_mul _ _ _).symm
      have step3 : x + (d - x % d) = x / d * d + d := by omega
      have step4 : (x / d * d + d) * 2 ^ e = (x / d + 1) * 2 ^ e * d := by ring
      calc x * M * d = x * (M * d) := by ring
        _ < (x + (d - x % d)) * 2 ^ e := by rw [← step2]; exact step1
        _ = (x / d + 1) * 2 ^ e * d := by rw [step3, step4]
    exact lt_of_mul_lt_mul_right key (Nat.zero_le d)
  have hq1 : x / d ≤ x * M / 2 ^ e := (Nat.le_div_iff_mul_le he).2 hlow
  have hq2 : x * M / 2 ^ e < x / d + 1 := (Nat.div_lt_iff_lt_mul he).2 hup
  omega

/-- `(a - 1) * (b - 2) < a * b` in `Nat`, for positive `a`. -/
lemma sub_one_mul_sub_two_lt {a b : Nat} (ha : 0 < a) (hb : 0 < b) :
    (a - 1) * (b - 2) < a * b := by
  calc (a - 1) * (b - 2) ≤ (a - 1) * b := Nat.mul_le_mul_left _ (by omega)
    _ = a * b - b := by rw [Nat.sub_mul, one_mul]
    _ < a * b := by
        have hba : b ≤ a * b := Nat.le_mul_of_pos_left _ ha
        omega

/-! ## Unsigned magic: the derived constant and its invariants -/

/-- All the facts about `M = ⌈2^(n+s)/d⌉` needed for the unsigned path:
its window `2^n < M < 2^(n+1)` (so bit `n` is set) and the exact
division property for every `x < 2^n`. -/
lemma umagic_core (n d s M : Nat) (hd0 : d ≠ 0)
    (hnp : ∀ j, d ≠ 2 ^ j) (hdn : d < 2 ^ n)
    (hs : s = Nat.size d) (hM : M = (2 ^ (n + s) + d - 1) / d) :
    2 ^ n < M ∧ M < 2 ^ (n + 1) ∧
    ∀ x < 2 ^ n, x / d = x * M / 2 ^ (n + s) := by
  have hd3 : 3 ≤ d := three_le_of_ok hd0 hnp
  have hdpos : 0 < d := by omega
  have hs2 : 2 ≤ s := hs ▸ two_le_size hd3
  have hlo : 2 ^ (s - 1) < d := hs ▸ two_pow_size_pred_lt hd0 hnp
  have hhi : d < 2 ^ s := hs ▸ Nat.lt_size_self d
  have hMd_ge : 2 ^ (n + s) ≤ M * d := by
    rw [hM]
    exact ceilDiv_mul_ge hdpos (pow_pos two_pos _)
  have hMd_le : M * d ≤ 2 ^ (n + s) + d - 1 := by
    rw [hM]
    exact Nat.div_mul_le_self _ _
  have hMgt : 2 ^ n < M := by
    have h1 : 2 ^ n * d < 2 ^ (n + s) := by
      rw [pow_add]
      exact mul_lt_mul_of_pos_left hhi (pow_pos two_pos n)
    have h2 : 2 ^ n * d < M * d := lt_of_lt_of_le h1 hMd_ge
    exact lt_of_mul_lt_mul_right h2 (Nat.zero_le d)
  have hMlt : M < 2 ^ (n + 1) := by
    have h2 : 2 ^ (n + s) + d - 1 < 2 ^ (n + 1) * d := by
      have e1 : 2 ^ (n + 1) * 2 ^ (s - 1) = 2 ^ (n + s) := by
        rw [← pow_add]
        congr 1
        omega
      have e2 : 2 ^ (n + 1) * (2 ^ (s - 1) + 1) ≤ 2 ^ (n + 1) * d :=
        Nat.mul_le_mul_left _ (by omega)
      have e3 : 2 ^ (n + 1) * (2 ^ (s - 1) + 1) = 2 ^ (n + s) + 2 ^ (n + 1) := by
        rw [Nat.mul_add, e1, mul_one]
      have e4 : d - 1 < 2 ^ (n + 1) := by
        have h5 : (2 : Nat) ^ n ≤ 2 ^ (n + 1) := Nat.pow_le_pow_right two_pos (by omega)
        omega
      omega
    have h3 : M * d < 2 ^ (n + 1) * d := lt_of_le_of_lt hMd_le h2
    exact lt_of_mul_lt_mul_right h3 (Nat.zero_le d)
  refine ⟨hMgt, hMlt, fun x hx => ?_⟩
  symm
  apply magic_floor d M (n + s) x hdpos hMd_ge
  have hkey : (2 ^ n - 1) * (2 ^ s - 2) < 2 ^ (n + s) := by
    have h6 := sub_one_mul_sub_two_lt (pow_pos two_pos n) (pow_pos two_pos s)
    calc (2 ^ n - 1) * (2 ^ s - 2) < 2 ^ n * 2 ^ s := h6
      _ = 2 ^ (n + s) := (pow_add 2 n s).symm
  obtain ⟨E, hE⟩ : ∃ E, (2 : Nat) ^ (n + s) = E := ⟨_, rfl⟩
  rw [hE] at hMd_ge hMd_le hkey ⊢
  have hδ : M * d - E ≤ d - 1 := by omega
  have hbound : x * (M * d - E) ≤ (2 ^ n - 1) * (d - 1) :=
    Nat.mul_le_mul (by omega) hδ
  have hmono : (2 ^ n - 1) * (d - 1) ≤ (2 ^ n - 1) * (2 ^ s - 2) :=
    Nat.mul_le_mul_left _ (by omega)
  have hrpos : 1 ≤ d - x % d := by
    have h7 := Nat.mod_lt x hdpos
    omega
  calc x * (M * d - E) < E := by omega
    _ = 1 * E := (one_mul _).symm
    _ ≤ (d - x % d) * E := Nat.mul_le_mul_right _ hrpos

lemma uresidue_lt_two_pow_64 (n : Nat) (c : Int) (hn : n ≤ 64) :
    uresidue n c < 2 ^ 64 :=
  lt_of_lt_of_le (uresidue_lt n c hn) (Nat.pow_le_pow_right two_pos hn)

lemma umagic_def (n : Nat) (c : Int) (hn64 : n ≤ 64) :
    umagic n c =
      { s := (Nat.size (uresidue n c) : Int),
        m := (if ((2 ^ (n + Nat.size (uresidue n c)) + uresidue n c - 1) /
                    uresidue n c).testBit n
              then (2 ^ (n + Nat.size (uresidue n c)) + uresidue n c - 1) /
                    uresidue n c - 2 ^ n
              else (2 ^ (n + Nat.size (uresidue n c)) + uresidue n c - 1) /
                    uresidue n c) % 2 ^ 64 } := by
  have h : bitLen (uresidue n c) = Nat.size (uresidue n c) :=
    bitLen_eq _ (uresidue_lt_two_pow_64 n c hn64)
  simp only [umagic, h]

lemma umagicPanics_def (n : Nat) (c : Int) (hn64 : n ≤ 64) :
    umagicPanics n c =
      !((2 ^ (n + Nat.size (uresidue n c)) + uresidue n c - 1) /
          uresidue n c).testBit n := by
  have h : bitLen (uresidue n c) = Nat.size (uresidue n c) :=
    bitLen_eq _ (uresidue_lt_two_pow_64 n c hn64)
  simp only [umagicPanics, h]

/-- Unpack `umagicOK n c = true` into the arithmetic facts it encodes
about the `n`-bit residue. -/
lemma umagicOK_unpack {n : Nat} {c : Int} (hok : umagicOK n c = true) :
    uresidue n c ≠ 0 ∧ ∀ j, uresidue n c ≠ 2 ^ j := by
  have hok' : uresidue n c &&& (uresidue n c - 1) ≠ 0 := by
    simpa [umagicOK] using hok
  have hchar := land_pred_eq_zero_iff (uresidue n c)
  exact ⟨fun h => hok' (hchar.2 (Or.inl h)),
    fun j h => hok' (hchar.2 (Or.inr ⟨j, h⟩))⟩

/-- C1: for every supported width `n` and constant `c` accepted by
`umagicOK`, with `d` the `n`-bit unsigned residue of `c` and
`{s, m} = umagic n c`, every `x < 2^n` satisfies
`x / d = (x * (m + 2^n)) >>> (n + s)` with an exact multiply and a
logical right shift. -/
theorem umagic_division_exact (n : Nat) (c : Int) (x : Nat)
    (hn : n = 8 ∨ n = 16 ∨ n = 32 ∨ n = 64)
    (hok : umagicOK n c = true) (hx : x < 2 ^ n) :
    x / uresidue n c =
      (x * ((umagic n c).m + 2 ^ n)) >>> (n + ((umagic n c).s).toNat) := by
  have hn1 : 0 < n := by rcases hn with rfl | rfl | rfl | rfl <;> norm_num
  have hn64 : n ≤ 64 := by rcases hn with rfl | rfl | rfl | rfl <;> norm_num
  obtain ⟨hd0, hnp⟩ := umagicOK_unpack hok
  obtain ⟨hMgt, hMlt, hdiv⟩ :=
    umagic_core n (uresidue n c) (Nat.size (uresidue n c))
      ((2 ^ (n + Nat.size (uresidue n c)) + uresidue n c - 1) / uresidue n c)
      hd0 hnp (uresidue_lt n c hn64) rfl rfl
  have htb := testBit_true_of_mem_Ico hMgt.le hMlt
  have hm : (umagic n c).m =
      (2 ^ (n + Nat.size (uresidue n c)) + uresidue n c - 1) / uresidue n c
        - 2 ^ n := by
    rw [umagic_def n c hn64]
    simp only [htb, if_true]
    apply Nat.mod_eq_of_lt
    have h64 : (2 : Nat) ^ n ≤ 2 ^ 64 := Nat.pow_le_pow_right two_pos hn64
    have hlt2 : (2 : Nat) ^ (n + 1) = 2 ^ n + 2 ^ n := by rw [pow_succ]; omega
    omega
  have hs' : ((umagic n c).s).toNat = Nat.size (uresidue n c) := by
    rw [umagic_def n c hn64]
    exact Int.toNat_natCast _
  rw [Nat.shiftRight_eq_div_pow, hm, hs']
  have hcancel :
      (2 ^ (n + Nat.size (uresidue n c)) + uresidue n c - 1) / uresidue n c
        - 2 ^ n + 2 ^ n =
      (2 ^ (n + Nat.size (uresidue n c)) + uresidue n c - 1) / uresidue n c := by
    omega
  rw [hcancel]
  exact hdiv x hx

theorem umagic_division_exact_witness :
    umagicOK 8 3 = true ∧ (255 : Nat) < 2 ^ 8 ∧
    255 / uresidue 8 3 =
      (255 * ((umagic 8 3).m + 2 ^ 8)) >>> (8 + ((umagic 8 3).s).toNat) :=
  ⟨by decide, by decide,
    umagic_division_exact 8 3 255 (Or.inl rfl) (by decide) (by decide)⟩

/-- C6: for every supported width `n` and constant `c` accepted by
`umagicOK`, the shift returned by `umagic` equals `⌈log2 d⌉` of the
`n`-bit residue `d`, and the derived `M = ⌈2^(n+s)/d⌉` always has bit
`n` set, so the panic branch of `umagic` is unreachable under the
precondition. -/
theorem umagic_shift_and_no_panic (n : Nat) (c : Int)
    (hn : n = 8 ∨ n = 16 ∨ n = 32 ∨ n = 64)
    (hok : umagicOK n c = true) :
    (umagic n c).s = (Nat.clog 2 (uresidue n c) : Int) ∧
    umagicPanics n c = false := by
  have hn64 : n ≤ 64 := by rcases hn with rfl | rfl | rfl | rfl <;> norm_num
  obtain ⟨hd0, hnp⟩ := umagicOK_unpack hok
  obtain ⟨hMgt, hMlt, _⟩ :=
    umagic_core n (uresidue n c) (Nat.size (uresidue n c))
      ((2 ^ (n + Nat.size (uresidue n c)) + uresidue n c - 1) / uresidue n c)
      hd0 hnp (uresidue_lt n c hn64) rfl rfl
  have htb := testBit_true_of_mem_Ico hMgt.le hMlt
  constructor
  · rw [umagic_def n c hn64, clog_eq_size hd0 hnp]
  · rw [umagicPanics_def n c hn64, htb]
    rfl

theorem umagic_shift_and_no_panic_witness :
    umagicOK 8 3 = true ∧
    (umagic 8 3).s = (Nat.clog 2 (uresidue 8 3) : Int) ∧
    umagicPanics 8 3 = false :=
  ⟨by decide, umagic_shift_and_no_panic 8 3 (Or.inl rfl) (by decide)⟩

/-! ## Signed magic -/

lemma smagic_def (n : Nat) (c : Int) (h64 : c.natAbs < 2 ^ 64) :
    smagic n c =
      { s := ((Nat.size c.natAbs - 1 : Nat) : Int),
        m := (((2 ^ (n + (Nat.size c.natAbs - 1)) + c - 1) / c) %
                (2 ^ 64 : Int)).toNat } := by
  have h : bitLen c.natAbs = Nat.size c.natAbs := bitLen_eq _ h64
  simp only [smagic, h]

lemma smagicPanics_def (n : Nat) (c : Int) (h64 : c.natAbs < 2 ^ 64) :
    smagicPanics n c =
      (((2 ^ (n + (Nat.size c.natAbs - 1)) + c - 1) / c).toNat.testBit n ||
        ! ((2 ^ (n + (Nat.size c.natAbs - 1)) + c - 1) / c).toNat.testBit (n - 1)) := by
  have h : bitLen c.natAbs = Nat.size c.natAbs := bitLen_eq _ h64
  simp only [smagicPanics, h]

/-- Unpack `smagicOK n c = true`: the constant is positive, at least 3,
and not a power of two. -/
lemma smagicOK_unpack {n : Nat} {c : Int} (hok : smagicOK n c = true) :
    0 < c ∧ 3 ≤ c.toNat ∧ (∀ j, c.toNat ≠ 2 ^ j) ∧ ∀ j : Nat, c ≠ 2 ^ j := by
  have hc0 : ¬ c < 0 := by
    intro h
    simp [smagicOK, h] at hok
  have hland : c.toNat &&& (c.toNat - 1) ≠ 0 := by
    simpa [smagicOK, hc0] using hok
  have hchar := land_pred_eq_zero_iff c.toNat
  have hd0 : c.toNat ≠ 0 := fun h => hland (hchar.2 (Or.inl h))
  have hnp : ∀ j, c.toNat ≠ 2 ^ j := fun j h => hland (hchar.2 (Or.inr ⟨j, h⟩))
  have hcpos : 0 < c := by omega
  refine ⟨hcpos, three_le_of_ok hd0 hnp, hnp, fun j hj => ?_⟩
  apply hnp j
  have : ((2 ^ j : Nat) : Int) = 2 ^ j := by push_cast; ring
  omega

/-- Ceiling-division upper bound: if `a ≤ B * c` then `⌈a/c⌉ ≤ B`. -/
lemma ceilDiv_le {a B cc : Nat} (hc : 0 < cc) (h : a ≤ B * cc) :
    (a + cc - 1) / cc ≤ B := by
  have h3 : (cc - 1) / cc = 0 := Nat.div_eq_of_lt (by omega)
  calc (a + cc - 1) / cc ≤ ((cc - 1) + B * cc) / cc := Nat.div_le_div_right (by omega)
    _ = (cc - 1) / cc + B := Nat.add_mul_div_right _ _ hc
    _ = B := by rw [h3]; omega

/-- All the quotient bounds needed for the signed path, on the `Nat`
side: the ceiling of `2^(n+s)/c` is a *strict* over-approximation
(because a non-power-of-two `c` cannot divide `2^(n+s)`), the positive
operand range divides exactly, and for the negative range the product
`y * M` is trapped strictly between consecutive multiples of
`2^(n+s)`. -/
lemma smagic_core (n cN s M : Nat) (hn1 : 0 < n) (hc3 : 3 ≤ cN)
    (hnp : ∀ j, cN ≠ 2 ^ j)
    (hs : s = Nat.size cN - 1) (hM : M = (2 ^ (n + s) + cN - 1) / cN) :
    2 ^ (n + s) < M * cN ∧
    (∀ x < 2 ^ (n - 1), x / cN = x * M / 2 ^ (n + s)) ∧
    (∀ y, 1 ≤ y → y ≤ 2 ^ (n - 1) →
      y / cN * 2 ^ (n + s) < y * M ∧ y * M ≤ (y / cN + 1) * 2 ^ (n + s)) := by
  have hc0 : cN ≠ 0 := by omega
  have hcpos : 0 < cN := by omega
  have hsz : 2 ≤ Nat.size cN := two_le_size hc3
  have hs1 : s + 1 = Nat.size cN := by omega
  have hlo : 2 ^ s < cN := by
    have h := two_pow_size_pred_lt hc0 hnp
    rwa [← hs1, Nat.add_sub_cancel] at h
  have hhi : cN < 2 ^ (s + 1) := by
    have h := Nat.lt_size_self cN
    rwa [← hs1] at h
  have hMd_ge : 2 ^ (n + s) ≤ M * cN := by
    rw [hM]
    exact ceilDiv_mul_ge hcpos (pow_pos two_pos _)
  have hMd_le : M * cN ≤ 2 ^ (n + s) + cN - 1 := by
    rw [hM]
    exact Nat.div_mul_le_self _ _
  have hndvd : ¬ cN ∣ 2 ^ (n + s) := by
    intro hdvd
    rcases (Nat.dvd_prime_pow Nat.prime_two).1 hdvd with ⟨j, _, hj⟩
    exact hnp j hj
  have hMd_gt : 2 ^ (n + s) < M * cN := by
    rcases lt_or_eq_of_le hMd_ge with h | h
    · exact h
    · exact absurd (h ▸ dvd_mul_left cN M) hndvd
  have hEcalc : (2 : Nat) ^ (n - 1) * 2 ^ (s + 1) ≤ 2 ^ (n + s) := by
    rw [← pow_add]
    exact Nat.pow_le_pow_right two_pos (by omega)
  refine ⟨hMd_gt, ?_, ?_⟩
  · intro x hx
    symm
    apply magic_floor cN M (n + s) x hcpos hMd_ge
    have hkey : (2 ^ (n - 1) - 1) * (2 ^ (s + 1) - 2) < 2 ^ (n + s) := by
      have h6 := sub_one_mul_sub_two_lt (pow_pos two_pos (n - 1))
        (pow_pos two_pos (s + 1))
      exact lt_of_lt_of_le h6 hEcalc
    obtain ⟨E, hE⟩ : ∃ E, (2 : Nat) ^ (n + s) = E := ⟨_, rfl⟩
    rw [hE] at hMd_ge hMd_le hMd_gt hkey ⊢
    have hδ : M * cN - E ≤ cN - 1 := by omega
    have hbound : x * (M * cN - E) ≤ (2 ^ (n - 1) - 1) * (cN - 1) :=
      Nat.mul_le_mul (by omega) hδ
    have hmono : (2 ^ (n - 1) - 1) * (cN - 1) ≤ (2 ^ (n - 1) - 1) * (2 ^ (s + 1) - 2) :=
      Nat.mul_le_mul_left _ (by omega)
    have hrpos : 1 ≤ cN - x % cN := by
      have h7 := Nat.mod_lt x hcpos
      omega
    calc x * (M * cN - E) < E := by omega
      _ = 1 * E := (one_mul _).symm
      _ ≤ (cN - x % cN) * E := Nat.mul_le_mul_right _ hrpos
  · intro y hy1 hy2
    have hyd : y / cN * cN + y % cN = y := Nat.div_add_mod' y cN
    have hr : y % cN < cN := Nat.mod_lt y hcpos
    have hEbound : (2 : Nat) ^ (n - 1) * (2 ^ (s + 1) - 2) ≤ 2 ^ (n + s) := by
      calc (2 : Nat) ^ (n - 1) * (2 ^ (s + 1) - 2)
          ≤ 2 ^ (n - 1) * 2 ^ (s + 1) := Nat.mul_le_mul_left _ (by omega)
        _ ≤ 2 ^ (n + s) := hEcalc
    obtain ⟨E, hE⟩ : ∃ E, (2 : Nat) ^ (n + s) = E := ⟨_, rfl⟩
    rw [hE] at hMd_ge hMd_le hMd_gt hEbound ⊢
    constructor
    · have key : y / cN * E * cN < y * M * cN := by
        have t2 : y / cN * cN * E ≤ y * E := Nat.mul_le_mul_right _ (by omega)
        have t3 : y * E < y * (M * cN) := mul_lt_mul_of_pos_left hMd_gt (by omega)
        calc y / cN * E * cN = y / cN * cN * E := by ring
          _ ≤ y * E := t2
          _ < y * (M * cN) := t3
          _ = y * M * cN := by ring
      exact lt_of_mul_lt_mul_right key (Nat.zero_le cN)
    · have expand : y * (M * cN) = y * E + y * (M * cN - E) := by
        have h3 : E + (M * cN - E) = M * cN := by omega
        rw [← Nat.mul_add, h3]
      have hδ : M * cN - E ≤ cN - 1 := by omega
      have hub : y * (M * cN - E) ≤ E := by
        calc y * (M * cN - E) ≤ 2 ^ (n - 1) * (2 ^ (s + 1) - 2) :=
            Nat.mul_le_mul hy2 (by omega)
          _ ≤ E := hEbound
      have key : y * M * cN ≤ (y / cN + 1) * E * cN := by
        have t4 : y * E + (cN - y % cN) * E = (y + (cN - y % cN)) * E :=
          (add_mul _ _ _).symm
        have t5 : y + (cN - y % cN) = (y / cN + 1) * cN := by
          have t6 : (y / cN + 1) * cN = y / cN * cN + cN := by ring
          omega
        have t7 : 1 ≤ cN - y % cN := by omega
        calc y * M * cN = y * (M * cN) := by ring
          _ = y * E + y * (M * cN - E) := expand
          _ ≤ y * E + (cN - y % cN) * E := by
              have t8 : y * (M * cN - E) ≤ (cN - y % cN) * E := by
                calc y * (M * cN - E) ≤ E := hub
                  _ = 1 * E := (one_mul _).symm
                  _ ≤ (cN - y % cN) * E := Nat.mul_le_mul_right _ t7
              omega
          _ = (y + (cN - y % cN)) * E := t4
          _ = (y / cN + 1) * cN * E := by rw [t5]
          _ = (y / cN + 1) * E * cN := by ring
      exact Nat.le_of_mul_le_mul_right key hcpos

lemma smagic_s_bounds (cN : Nat) (hc3 : 3 ≤ cN) (hnp : ∀ j, cN ≠ 2 ^ j) :
    2 ^ (Nat.size cN - 1) < cN ∧ cN < 2 ^ (Nat.size cN - 1 + 1) := by
  have hsz : 2 ≤ Nat.size cN := two_le_size hc3
  have h1 := two_pow_size_pred_lt (by omega : cN ≠ 0) hnp
  have h2 := Nat.lt_size_self cN
  refine ⟨h1, ?_⟩
  have h3 : Nat.size cN - 1 + 1 = Nat.size cN := by omega
  rw [h3]
  exact h2

lemma smagic_M_le (n cN s M : Nat) (hc3 : 3 ≤ cN) (hnp : ∀ j, cN ≠ 2 ^ j)
    (hs : s = Nat.size cN - 1) (hM : M = (2 ^ (n + s) + cN - 1) / cN) :
    M ≤ 2 ^ n := by
  have hlo : 2 ^ s < cN := hs ▸ (smagic_s_bounds cN hc3 hnp).1
  rw [hM]
  apply ceilDiv_le (by omega)
  rw [pow_add]
  exact Nat.mul_le_mul_left _ hlo.le

/-- When the constant fits in `n` bits (equivalently `s < n`), the
signed multiplier lies strictly between `2^(n-1)` and `2^n`, so its top
bit is set and bit `n` is clear. -/
lemma smagic_M_window (n cN s M : Nat) (hn1 : 0 < n) (hc3 : 3 ≤ cN)
    (hnp : ∀ j, cN ≠ 2 ^ j) (hsn : s < n)
    (hs : s = Nat.size cN - 1) (hM : M = (2 ^ (n + s) + cN - 1) / cN) :
    2 ^ (n - 1) < M ∧ M < 2 ^ n := by
  have hlo : 2 ^ s < cN := hs ▸ (smagic_s_bounds cN hc3 hnp).1
  have hhi : cN < 2 ^ (s + 1) := hs ▸ (smagic_s_bounds cN hc3 hnp).2
  have hcpos : 0 < cN := by omega
  constructor
  · have h1 : 2 ^ (n - 1) * cN < 2 ^ (n + s) := by
      calc 2 ^ (n - 1) * cN < 2 ^ (n - 1) * 2 ^ (s + 1) :=
          mul_lt_mul_of_pos_left hhi (pow_pos two_pos _)
        _ = 2 ^ (n + s) := by rw [← pow_add]; congr 1; omega
    have hMd_ge : 2 ^ (n + s) ≤ M * cN := by
      rw [hM]
      exact ceilDiv_mul_ge hcpos (pow_pos two_pos _)
    have h2 : 2 ^ (n - 1) * cN < M * cN := lt_of_lt_of_le h1 hMd_ge
    exact lt_of_mul_lt_mul_right h2 (Nat.zero_le cN)
  · have key : 2 ^ (n + s) ≤ (2 ^ n - 1) * cN := by
      have e1 : (2 ^ n - 1) * (2 ^ s + 1) = 2 ^ n * 2 ^ s + 2 ^ n - 2 ^ s - 1 := by
        rw [Nat.sub_mul, one_mul, Nat.mul_add, mul_one]
        have hx : (1 : Nat) ≤ 2 ^ n := Nat.one_le_two_pow
        have hy : (2 : Nat) ^ s ≤ 2 ^ n * 2 ^ s := Nat.le_mul_of_pos_left _ (by omega)
        omega
      have e2 : (2 ^ n - 1) * (2 ^ s + 1) ≤ (2 ^ n - 1) * cN :=
        Nat.mul_le_mul_left _ (by omega)
      have e3 : (2 : Nat) ^ s < 2 ^ n := (Nat.pow_lt_pow_iff_right one_lt_two).2 hsn
      have e4 : (2 : Nat) ^ (n + s) = 2 ^ n * 2 ^ s := pow_add 2 n s
      omega
    have hle : M ≤ 2 ^ n - 1 := by
      rw [hM]
      exact ceilDiv_le (by omega) key
    have h5 : (1 : Nat) ≤ 2 ^ n := Nat.one_le_two_pow
    omega

/-- The `big.Int` quotient computed by `smagic` is the cast of the
corresponding `Nat` ceiling quotient. -/
lemma smagic_M_cast (n : Nat) (c : Int) (hc : 0 < c) :
    (2 ^ (n + (Nat.size c.natAbs - 1)) + c - 1) / c =
      (((2 ^ (n + (Nat.size c.toNat - 1)) + c.toNat - 1) / c.toNat : Nat) : Int) := by
  have habs : c.natAbs = c.toNat := by omega
  have hcast : ((c.toNat : Nat) : Int) = c := Int.toNat_of_nonneg hc.le
  have hc1 : 1 ≤ c.toNat := by omega
  rw [habs, Int.natCast_div, hcast]
  congr 1
  have hp : 1 ≤ 2 ^ (n + (Nat.size c.toNat - 1)) := Nat.one_le_two_pow
  have h1 : (2 ^ (n + (Nat.size c.toNat - 1)) + c.toNat - 1 : Nat)
      = 2 ^ (n + (Nat.size c.toNat - 1)) + (c.toNat - 1) := by omega
  rw [h1, Nat.cast_add, Nat.cast_sub hc1]
  push_cast [hcast]
  ring

/-- Field-level evaluation of the `smagic` record, assuming the derived
multiplier fits in 64 bits. -/
lemma smagic_eval (n : Nat) (c : Int) (hc : 0 < c) (h64 : c.toNat < 2 ^ 64)
    (hM64 : (2 ^ (n + (Nat.size c.toNat - 1)) + c.toNat - 1) / c.toNat < 2 ^ 64) :
    ((smagic n c).s).toNat = Nat.size c.toNat - 1 ∧
    (smagic n c).m = (2 ^ (n + (Nat.size c.toNat - 1)) + c.toNat - 1) / c.toNat := by
  have habs : c.natAbs = c.toNat := by omega
  have h64' : c.natAbs < 2 ^ 64 := by omega
  constructor
  · rw [smagic_def n c h64', habs]
    exact Int.toNat_natCast _
  · rw [smagic_def n c h64']
    show ((((2 ^ (n + (Nat.size c.natAbs - 1)) + c - 1) / c) % (2 ^ 64 : Int)).toNat) = _
    rw [smagic_M_cast n c hc]
    have hlt : (((2 ^ (n + (Nat.size c.toNat - 1)) + c.toNat - 1) / c.toNat : Nat) : Int)
        < (2 ^ 64 : Int) := by exact_mod_cast hM64
    rw [Int.emod_eq_of_lt (by positivity) hlt, Int.toNat_natCast]

/-- The signed strength-reduction formula, in full generality: for every
supported width, positive non-power-of-two `int64` constant and operand
in the signed `n`-bit range, truncated division equals the
multiply/arithmetic-shift sequence with the `+1` correction for
negative operands.  (`Int.fdiv` by `2^(n+s)` is the arithmetic right
shift; `Int.tdiv` is Go's truncated `/`.) -/
lemma smagic_formula (n : Nat) (c : Int) (x : Int)
    (hn : n = 8 ∨ n = 16 ∨ n = 32 ∨ n = 64)
    (hc : 0 < c) (hc63 : c < 2 ^ 63) (hok : smagicOK n c = true)
    (hx1 : -(2 ^ (n - 1) : Int) ≤ x) (hx2 : x < 2 ^ (n - 1)) :
    x.tdiv c =
      (x * ((smagic n c).m : Int)).fdiv (2 ^ (n + ((smagic n c).s).toNat)) +
        (if x < 0 then 1 else 0) := by
  have hn1 : 0 < n := by rcases hn with rfl | rfl | rfl | rfl <;> norm_num
  have hn64 : n ≤ 64 := by rcases hn with rfl | rfl | rfl | rfl <;> norm_num
  obtain ⟨_, hc3, hnpN, _⟩ := smagicOK_unpack hok
  have hc63' : c.toNat < 2 ^ 63 := by
    have hcast : ((2 ^ 63 : Nat) : Int) = 2 ^ 63 := by norm_num
    omega
  have hsize63 : Nat.size c.toNat ≤ 63 := Nat.size_le.2 hc63'
  have hM64 : (2 ^ (n + (Nat.size c.toNat - 1)) + c.toNat - 1) / c.toNat < 2 ^ 64 := by
    rcases lt_or_ge (Nat.size c.toNat - 1) n with hlt | hge
    · have hw := (smagic_M_window n c.toNat (Nat.size c.toNat - 1) _ hn1 hc3 hnpN hlt
        rfl rfl).2
      have h64 : (2 : Nat) ^ n ≤ 2 ^ 64 := Nat.pow_le_pow_right two_pos hn64
      omega
    · have h1 := smagic_M_le n c.toNat (Nat.size c.toNat - 1) _ hc3 hnpN rfl rfl
      have hn62 : n ≤ 62 := by omega
      have h64 : (2 : Nat) ^ n < 2 ^ 64 :=
        (Nat.pow_lt_pow_iff_right one_lt_two).2 (by omega)
      omega
  obtain ⟨hsval, hmval⟩ := smagic_eval n c hc (by omega) hM64
  set cN := c.toNat with hcN
  set s := Nat.size cN - 1 with hsdef
  set MN := (2 ^ (n + s) + cN - 1) / cN with hMNdef
  obtain ⟨hMgt, hposx, hnegy⟩ := smagic_core n cN s MN hn1 hc3 hnpN rfl rfl
  have hccast : ((cN : Nat) : Int) = c := Int.toNat_of_nonneg hc.le
  have hcastn1 : ((2 ^ (n - 1) : Nat) : Int) = 2 ^ (n - 1) := by push_cast; ring
  rw [hsval, hmval]
  have hb : (0 : Int) < 2 ^ (n + s) := by positivity
  rcases le_or_lt 0 x with hxpos | hxneg
  · have hif : ¬ x < 0 := by omega
    rw [if_neg hif]
    obtain ⟨xN, rfl⟩ := Int.eq_ofNat_of_zero_le hxpos
    have hxN : xN < 2 ^ (n - 1) := by omega
    have hnat := hposx xN hxN
    have hL : (xN : Int).tdiv c = ((xN / cN : Nat) : Int) := by
      rw [← hccast]
      exact (Int.ofNat_tdiv xN cN).symm
    have hpow : ((2 ^ (n + s) : Nat) : Int) = 2 ^ (n + s) := by push_cast; ring
    have hR : ((xN : Int) * (MN : Int)).fdiv (2 ^ (n + s)) =
        ((xN * MN / 2 ^ (n + s) : Nat) : Int) := by
      rw [Int.fdiv_eq_ediv _ hb.le, ← Nat.cast_mul, ← hpow, ← Int.natCast_div]
    rw [hL, hR, hnat]
    omega
  · rw [if_pos hxneg]
    set y := (-x).toNat with hy
    have hyx : x = -(y : Int) := by omega
    have hy1 : 1 ≤ y := by omega
    have hy2 : y ≤ 2 ^ (n - 1) := by omega
    obtain ⟨hlow, hup⟩ := hnegy y hy1 hy2
    have hL : x.tdiv c = -((y / cN : Nat) : Int) := by
      rw [hyx, Int.neg_tdiv, ← hccast]
      rw [(Int.ofNat_tdiv y cN).symm]
    have hpow : ((2 ^ (n + s) : Nat) : Int) = 2 ^ (n + s) := by push_cast; ring
    have hlow2 : ((y / cN : Nat) : Int) * 2 ^ (n + s) < ((y * MN : Nat) : Int) := by
      rw [← hpow, ← Nat.cast_mul]
      exact_mod_cast hlow
    have hup2 : ((y * MN : Nat) : Int) ≤ (((y / cN : Nat) : Int) + 1) * 2 ^ (n + s) := by
      have hc1 : (((y / cN : Nat) : Int) + 1) = (((y / cN + 1 : Nat)) : Int) := by
        push_cast
        ring
      rw [← hpow, hc1, ← Nat.cast_mul]
      exact_mod_cast hup
    have hR : (x * (MN : Int)).fdiv (2 ^ (n + s)) = -(((y / cN : Nat) : Int) + 1) := by
      rw [hyx]
      have hprod : (-(y : Int)) * (MN : Int) = -((y * MN : Nat) : Int) := by
        push_cast
        ring
      rw [hprod, Int.fdiv_eq_ediv _ hb.le]
      have h1 : -(((y / cN : Nat) : Int)) - 1 ≤ (-((y * MN : Nat) : Int)) / 2 ^ (n + s) := by
        rw [Int.le_ediv_iff_mul_le hb]
        linarith [hup2]
      have h2 : (-((y * MN : Nat) : Int)) / 2 ^ (n + s) < -(((y / cN : Nat) : Int)) := by
        rw [Int.ediv_lt_iff_lt_mul hb]
        linarith [hlow2]
      generalize hD : (-((y * MN : Nat) : Int)) / 2 ^ (n + s) = D at h1 h2
      omega
    rw [hL, hR]
    ring

/-- C2: for every supported width `n`, every strictly positive constant
`c` (an `int64`, hence `c < 2^63`) accepted by `smagicOK`, and every
operand `-2^(n-1) ≤ x < 2^(n-1)`, with `{s, m} = smagic n c`:
`trunc(x / c) = ((x * m) >> (n + s)) + (1 if x < 0 else 0)`, where the
product is the exact signed-by-unsigned product and the shift is
arithmetic (`Int.fdiv` by `2^(n+s)`). -/
theorem smagic_division_exact (n : Nat) (c : Int) (x : Int)
    (hn : n = 8 ∨ n = 16 ∨ n = 32 ∨ n = 64)
    (hc : 0 < c) (hc63 : c < 2 ^ 63) (hok : smagicOK n c = true)
    (hx1 : -(2 ^ (n - 1) : Int) ≤ x) (hx2 : x < 2 ^ (n - 1)) :
    x.tdiv c =
      (x * ((smagic n c).m : Int)).fdiv (2 ^ (n + ((smagic n c).s).toNat)) +
        (if x < 0 then 1 else 0) :=
  smagic_formula n c x hn hc hc63 hok hx1 hx2

theorem smagic_division_exact_witness :
    (0 : Int) < 3 ∧ (3 : Int) < 2 ^ 63 ∧ smagicOK 8 3 = true ∧
    -(2 ^ (8 - 1) : Int) ≤ -5 ∧ (-5 : Int) < 2 ^ (8 - 1) ∧
    (-5 : Int).tdiv 3 =
      ((-5) * ((smagic 8 3).m : Int)).fdiv (2 ^ (8 + ((smagic 8 3).s).toNat)) +
        (if (-5 : Int) < 0 then 1 else 0) :=
  ⟨by norm_num, by norm_num, by decide, by norm_num, by norm_num,
    smagic_division_exact 8 3 (-5) (Or.inl rfl) (by norm_num) (by norm_num)
      (by decide) (by norm_num) (by norm_num)⟩

/-- C10: `smagicOK` never reads its width argument, so it is the same
function at every width; in particular it performs no range check and
accepts `c = 300` at width 8 even though 300 does not fit in 8 bits. -/
theorem smagicOK_ignores_width :
    (∀ (n1 n2 : Nat) (c : Int), smagicOK n1 c = smagicOK n2 c) ∧
    smagicOK 8 300 = true :=
  ⟨fun _ _ _ => rfl, by decide⟩

theorem smagicOK_ignores_width_witness :
    smagicOK 8 300 = smagicOK 64 300 ∧ smagicOK 8 300 = true :=
  ⟨smagicOK_ignores_width.1 8 64 300, smagicOK_ignores_width.2⟩

/-- C4 counterexample: `smagic 8 3` returns `s = 1` (computed as
`BitLen(3) - 1 = ⌈log2 3⌉ - 1`... i.e. `1`), and
`m = ⌈2^(8+1)/3⌉ = 171`, not the claimed `s = 0` with `m` derived from
`⌈2^8/3⌉ = 86` (87 would also contradict the spec's own bit-7
invariant, since 86 < 128). -/
theorem smagic_8_3_claim_false :
    ¬ ((smagic 8 3).s = 0 ∧ (smagic 8 3).m = 86) := by decide

/-- C4 (amended): for `n = 8`, `c = 3` (signed), `smagic` returns
`s = 1` and the multiplier `m = ⌈2^9/3⌉ = 171`, with bit 7 of `m` set,
and the constants reproduce truncated division on all of
`[-128, 127]`. -/
theorem smagic_8_3_constants :
    (smagic 8 3).s = 1 ∧ (smagic 8 3).m = 171 ∧
    Nat.testBit (smagic 8 3).m 7 = true ∧
    ∀ x : Int, -128 ≤ x → x < 128 →
      x.tdiv 3 = (x * 171).fdiv (2 ^ 9) + (if x < 0 then 1 else 0) := by
  refine ⟨by decide, by decide, by decide, fun x h1 h2 => ?_⟩
  have hm : ((smagic 8 3).m : Int) = 171 := by decide
  have hs : 8 + ((smagic 8 3).s).toNat = 9 := by decide
  have h := smagic_formula 8 3 x (Or.inl rfl) (by norm_num) (by norm_num) (by decide)
    (by norm_num; omega) (by norm_num; omega)
  rw [hs, hm] at h
  exact h

theorem smagic_8_3_constants_witness :
    (-128 : Int) ≤ -5 ∧ (-5 : Int) < 128 ∧
    (-5 : Int).tdiv 3 = ((-5) * 171).fdiv (2 ^ 9) + (if (-5 : Int) < 0 then 1 else 0) :=
  ⟨by norm_num, by norm_num,
    smagic_8_3_constants.2.2.2 (-5) (by norm_num) (by norm_num)⟩

/-- C7 counterexample: `smagicOK` performs no range check, and at width
8 the accepted constant `c = 2^20 + 1` gives `M = ⌈2^28/c⌉ = 256`,
whose bit 8 is set — the first panic branch of `smagic` fires, so the
panics are *not* unreachable under `smagicOK` alone. -/
theorem smagic_panic_reachable :
    smagicOK 8 1048577 = true ∧ smagicPanics 8 1048577 = true := by decide

/-- C7 (amended): for every supported width `n` and constant `c` with
`smagicOK n c` true that moreover fits in `n` bits (`c < 2^n`),
`M = ⌈2^(n+s)/c⌉` has bit `n` clear and bit `n-1` set: both panic
branches are unreachable and the returned multiplier has its top bit
`n-1` set. -/
theorem smagic_no_panic_in_range (n : Nat) (c : Int)
    (hn : n = 8 ∨ n = 16 ∨ n = 32 ∨ n = 64)
    (hok : smagicOK n c = true) (hlt : c < (2 : Int) ^ n) :
    smagicPanics n c = false ∧ Nat.testBit (smagic n c).m (n - 1) = true := by
  have hn1 : 0 < n := by rcases hn with rfl | rfl | rfl | rfl <;> norm_num
  have hn64 : n ≤ 64 := by rcases hn with rfl | rfl | rfl | rfl <;> norm_num
  obtain ⟨hc, hc3, hnpN, _⟩ := smagicOK_unpack hok
  have hcN : c.toNat < 2 ^ n := by
    have hcast : ((2 ^ n : Nat) : Int) = 2 ^ n := by push_cast; ring
    omega
  have hsn : Nat.size c.toNat - 1 < n := by
    have h1 : 2 ^ (Nat.size c.toNat - 1) < c.toNat :=
      (smagic_s_bounds c.toNat hc3 hnpN).1
    have h2 : (2 : Nat) ^ (Nat.size c.toNat - 1) < 2 ^ n := lt_trans h1 hcN
    exact (Nat.pow_lt_pow_iff_right one_lt_two).1 h2
  obtain ⟨hwlo, hwhi⟩ :=
    smagic_M_window n c.toNat (Nat.size c.toNat - 1) _ hn1 hc3 hnpN hsn rfl rfl
  have hM64 : (2 ^ (n + (Nat.size c.toNat - 1)) + c.toNat - 1) / c.toNat < 2 ^ 64 := by
    have h64 : (2 : Nat) ^ n ≤ 2 ^ 64 := Nat.pow_le_pow_right two_pos hn64
    omega
  have h64c : c.toNat < 2 ^ 64 :=
    lt_of_lt_of_le hcN (Nat.pow_le_pow_right two_pos hn64)
  obtain ⟨hsval, hmval⟩ := smagic_eval n c hc h64c hM64
  have hbit1 : Nat.testBit
      ((2 ^ (n + (Nat.size c.toNat - 1)) + c.toNat - 1) / c.toNat) (n - 1) = true := by
    apply testBit_true_of_mem_Ico hwlo.le
    have h3 : n - 1 + 1 = n := by omega
    rw [h3]
    exact hwhi
  have hbit0 : Nat.testBit
      ((2 ^ (n + (Nat.size c.toNat - 1)) + c.toNat - 1) / c.toNat) n = false :=
    Nat.testBit_lt_two_pow hwhi
  constructor
  · have h64' : c.natAbs < 2 ^ 64 := by omega
    rw [smagicPanics_def n c h64', smagic_M_cast n c hc, Int.toNat_natCast, hbit0, hbit1]
    rfl
  · rw [hmval]
    exact hbit1

theorem smagic_no_panic_in_range_witness :
    smagicOK 8 3 = true ∧ (3 : Int) < 2 ^ 8 ∧
    smagicPanics 8 3 = false ∧ Nat.testBit (smagic 8 3).m 7 = true := by
  have h := smagic_no_panic_in_range 8 3 (Or.inl rfl) (by decide) (by norm_num)
  exact ⟨by decide, by norm_num, h.1, h.2⟩

/-! ## Applicability characterization (C5) and congruence (C9) -/

/-- C5 counterexample: the applicability checks do *not* reject exactly
{0, 1, -1, powers of two}: the unsigned check accepts `-1` (whose 8-bit
residue is 255, not a power of two), and the signed check rejects `-3`
(every negative constant is rejected), both of which contradict the
claim at width 8. -/
theorem applicability_claim_false :
    umagicOK 8 (-1) = true ∧ smagicOK 8 (-3) = false := by decide

/-- C5 (amended): `umagicOK` and `udivisibleOK` accept `c` exactly when
the unsigned `n`-bit residue of `c` is neither 0 nor a power of two (so
over `[0, 2^n)` they reject exactly 0, 1 and the powers of two, but they
judge every other constant through its residue, accepting e.g. `-1`);
`smagicOK` accepts exactly the positive constants that are not powers
of two (so it also rejects every negative constant, not just `-1`). -/
theorem applicability_characterization (n : Nat) (c : Int)
    (hn : n = 8 ∨ n = 16 ∨ n = 32 ∨ n = 64) :
    (umagicOK n c = true ↔ uresidue n c ≠ 0 ∧ ∀ j, uresidue n c ≠ 2 ^ j) ∧
    (udivisibleOK n c = true ↔ uresidue n c ≠ 0 ∧ ∀ j, uresidue n c ≠ 2 ^ j) ∧
    (smagicOK n c = true ↔ 0 < c ∧ ∀ j : Nat, c ≠ 2 ^ j) := by
  have hchar := land_pred_eq_zero_iff (uresidue n c)
  have hland : uresidue n c &&& (uresidue n c - 1) ≠ 0 ↔
      uresidue n c ≠ 0 ∧ ∀ j, uresidue n c ≠ 2 ^ j := by
    constructor
    · intro h
      exact ⟨fun h0 => h (hchar.2 (Or.inl h0)),
        fun j hj => h (hchar.2 (Or.inr ⟨j, hj⟩))⟩
    · rintro ⟨h0, hp⟩ hand
      rcases hchar.1 hand with h | ⟨j, hj⟩
      · exact h0 h
      · exact hp j hj
  refine ⟨?_, ?_, ?_⟩
  · rw [show umagicOK n c = (uresidue n c &&& (uresidue n c - 1) != 0) from rfl,
      bne_iff_ne]
    exact hland
  · rw [show udivisibleOK n c = (uresidue n c &&& (uresidue n c - 1) != 0) from rfl,
      bne_iff_ne]
    exact hland
  · constructor
    · intro h
      obtain ⟨hc, _, _, hnp⟩ := smagicOK_unpack h
      exact ⟨hc, hnp⟩
    · rintro ⟨hc, hnp⟩
      have hne : ¬ c < 0 := by omega
      have htoNat : ∀ j, c.toNat ≠ 2 ^ j := by
        intro j hj
        apply hnp j
        have hcast : ((2 ^ j : Nat) : Int) = 2 ^ j := by push_cast; ring
        omega
      have h0 : c.toNat ≠ 0 := by omega
      have hand : c.toNat &&& (c.toNat - 1) ≠ 0 := by
        intro hand
        rcases (land_pred_eq_zero_iff c.toNat).1 hand with h | ⟨j, hj⟩
        · exact h0 h
        · exact htoNat j hj
      simp only [smagicOK, if_neg hne, bne_iff_ne, ne_eq]
      exact hand

theorem applicability_characterization_witness :
    uresidue 8 5 ≠ 0 ∧ ∀ j, uresidue 8 5 ≠ 2 ^ j :=
  (applicability_characterization 8 5 (Or.inl rfl)).1.mp (by decide)

/-- C9: the four unsigned-path functions each reduce their constant to
its `n`-bit unsigned residue first, so constants congruent modulo `2^n`
are indistinguishable to them. -/
theorem unsigned_residue_congruence (n : Nat) (c1 c2 : Int)
    (hn : n = 8 ∨ n = 16 ∨ n = 32 ∨ n = 64)
    (h : c1 % (2 ^ n : Int) = c2 % (2 ^ n : Int)) :
    umagicOK n c1 = umagicOK n c2 ∧ udivisibleOK n c1 = udivisibleOK n c2 ∧
    umagic n c1 = umagic n c2 ∧ udivisible n c1 = udivisible n c2 := by
  have hn64 : n ≤ 64 := by rcases hn with rfl | rfl | rfl | rfl <;> norm_num
  have hres : uresidue n c1 = uresidue n c2 := by
    rw [uresidue_eq n c1 hn64, uresidue_eq n c2 hn64]
    have hcast : ((2 ^ n : Nat) : Int) = 2 ^ n := by push_cast; ring
    rw [hcast, h]
  refine ⟨?_, ?_, ?_, ?_⟩
  · unfold umagicOK
    rw [hres]
  · unfold udivisibleOK
    rw [hres]
  · unfold umagic
    rw [hres]
  · unfold udivisible
    rw [hres]

theorem unsigned_residue_congruence_witness :
    (3 : Int) % (2 ^ 8 : Int) = (259 : Int) % (2 ^ 8 : Int) ∧
    umagicOK 8 3 = umagicOK 8 259 ∧ udivisibleOK 8 3 = udivisibleOK 8 259 ∧
    umagic 8 3 = umagic 8 259 ∧ udivisible 8 3 = udivisible 8 259 :=
  ⟨by decide, unsigned_residue_congruence 8 3 259 (Or.inl rfl) (by decide)⟩

/-! ## Newton iteration: the modular inverse (C8) -/

/-- One wrap-around Newton step at least doubles the number of correct
low bits of the inverse, capped at the 64-bit word: if
`m * d0 ≡ 1 (mod 2^k)` then `newtonStep d0 m * d0 ≡ 1 (mod 2^j)` for
any `j ≤ min (2k) 64`. -/
lemma newtonStep_inverse_pow {d0 m k j : Nat}
    (hk : (2 : Int) ^ k ∣ (m : Int) * (d0 : Int) - 1)
    (hj1 : j ≤ 2 * k) (hj2 : j ≤ 64) :
    (2 : Int) ^ j ∣ ((newtonStep d0 m : Nat) : Int) * (d0 : Int) - 1 := by
  set N : Int := 2 ^ 64 with hN
  have hNpos : (0 : Int) < N := by positivity
  have hle : m * d0 % 2 ^ 64 ≤ 2 + 2 ^ 64 :=
    le_of_lt (lt_of_lt_of_le (Nat.mod_lt _ (by positivity)) (by omega))
  have ht : ((m * d0 % 2 ^ 64 : Nat) : Int) = ((m : Int) * d0) % N := by
    push_cast
    ring_nf
  have hu : ((2 + 2 ^ 64 - m * d0 % 2 ^ 64 : Nat) : Int) = 2 + N - ((m : Int) * d0) % N := by
    rw [Nat.cast_sub hle, ← ht]
    push_cast
    ring
  have hstep : ((newtonStep d0 m : Nat) : Int) =
      ((m : Int) * ((2 + N - ((m : Int) * d0) % N) % N)) % N := by
    show (((m * ((2 + 2 ^ 64 - m * d0 % 2 ^ 64) % 2 ^ 64)) % 2 ^ 64 : Nat) : Int) = _
    rw [← hu]
    push_cast
    ring_nf
  have e0 : N ≡ 0 [ZMOD N] := Int.modEq_zero_iff_dvd.2 dvd_rfl
  have e1 : ((2 + N - ((m : Int) * d0) % N) % N) ≡ 2 - (m : Int) * d0 [ZMOD N] := by
    calc (2 + N - ((m : Int) * d0) % N) % N
        ≡ 2 + N - ((m : Int) * d0) % N [ZMOD N] := Int.emod_emod_of_dvd _ dvd_rfl
      _ ≡ 2 + 0 - (m : Int) * d0 [ZMOD N] :=
          Int.ModEq.sub ((Int.ModEq.refl 2).add e0) (Int.emod_emod_of_dvd _ dvd_rfl)
      _ = 2 - (m : Int) * d0 := by ring
  have e2 : ((newtonStep d0 m : Nat) : Int) ≡ (m : Int) * (2 - (m : Int) * d0) [ZMOD N] := by
    rw [hstep]
    calc ((m : Int) * ((2 + N - ((m : Int) * d0) % N) % N)) % N
        ≡ (m : Int) * ((2 + N - ((m : Int) * d0) % N) % N) [ZMOD N] :=
          Int.emod_emod_of_dvd _ dvd_rfl
      _ ≡ (m : Int) * (2 - (m : Int) * d0) [ZMOD N] := Int.ModEq.mul_left _ e1
  have e3 : ((newtonStep d0 m : Nat) : Int) * d0 ≡
      (m : Int) * (2 - (m : Int) * d0) * d0 [ZMOD N] := e2.mul_right _
  have hjN : (2 : Int) ^ j ∣ N := by
    rw [hN]
    exact pow_dvd_pow 2 hj2
  have h5 : (2 : Int) ^ j ∣ ((m : Int) * d0 - 1) ^ 2 := by
    have h5a : (2 : Int) ^ (2 * k) ∣ ((m : Int) * d0 - 1) ^ 2 := by
      rw [two_mul, pow_add, sq]
      exact mul_dvd_mul hk hk
    exact dvd_trans (pow_dvd_pow 2 hj1) h5a
  have h6 : N ∣ (m : Int) * (2 - (m : Int) * d0) * d0 -
      ((newtonStep d0 m : Nat) : Int) * d0 := Int.ModEq.dvd e3
  have e4 : ((newtonStep d0 m : Nat) : Int) * d0 - 1 =
      ((m : Int) * (2 - (m : Int) * d0) * d0 - 1) -
        ((m : Int) * (2 - (m : Int) * d0) * d0 - ((newtonStep d0 m : Nat) : Int) * d0) := by
    ring
  have e5 : (m : Int) * (2 - (m : Int) * d0) * d0 - 1 = -(((m : Int) * d0 - 1) ^ 2) := by
    ring
  rw [e4, e5]
  exact dvd_sub (dvd_neg.2 h5) (dvd_trans hjN h6)

/-- Five Newton steps from the 3-bit-correct seed `d0` give a full
64-bit inverse of any odd `d0`. -/
lemma newton_five_steps (d0 : Nat) (hodd : d0 % 2 = 1) :
    (2 : Int) ^ 64 ∣
      ((newtonStep d0 (newtonStep d0 (newtonStep d0 (newtonStep d0
        (newtonStep d0 d0)))) : Nat) : Int) * (d0 : Int) - 1 := by
  have h3 : (2 : Int) ^ 3 ∣ (d0 : Int) * (d0 : Int) - 1 := by
    obtain ⟨a, ha⟩ : ∃ a, d0 = 2 * a + 1 := ⟨d0 / 2, by omega⟩
    have hd0i : (d0 : Int) = 2 * (a : Int) + 1 := by exact_mod_cast ha
    obtain ⟨b, hb⟩ := (Int.even_mul_succ_self (a : Int)).two_dvd
    refine ⟨b, ?_⟩
    rw [hd0i]
    linear_combination 4 * hb
  have s1 := newtonStep_inverse_pow h3 (by norm_num : 6 ≤ 2 * 3) (by norm_num)
  have s2 := newtonStep_inverse_pow s1 (by norm_num : 12 ≤ 2 * 6) (by norm_num)
  have s3 := newtonStep_inverse_pow s2 (by norm_num : 24 ≤ 2 * 12) (by norm_num)
  have s4 := newtonStep_inverse_pow s3 (by norm_num : 48 ≤ 2 * 24) (by norm_num)
  exact newtonStep_inverse_pow s4 (by norm_num : 64 ≤ 2 * 48) (by norm_num)

lemma trailingZeros64_spec (d : Nat) (hd0 : d ≠ 0) (hlt : d < 2 ^ 64) :
    (d >>> trailingZeros64 d) % 2 = 1 ∧
    d = 2 ^ trailingZeros64 d * (d >>> trailingZeros64 d) := by
  rw [Nat.shiftRight_eq_div_pow]
  exact tzAux_spec 64 d hd0 hlt

lemma mask_eq (n : Nat) (hn : n ≤ 64) : (2 ^ 64 - 1) >>> (64 - n) = 2 ^ n - 1 := by
  rw [Nat.shiftRight_eq_div_pow]
  have hsplit : (2 : Nat) ^ 64 = 2 ^ (64 - n) * 2 ^ n := by
    rw [← pow_add]
    congr 1
    omega
  have hpos : 0 < (2 : Nat) ^ (64 - n) := pow_pos two_pos _
  have hdecomp : 2 ^ 64 - 1 = (2 ^ (64 - n) - 1) + (2 ^ n - 1) * 2 ^ (64 - n) := by
    have h1 : (2 ^ n - 1) * 2 ^ (64 - n) = 2 ^ (64 - n) * 2 ^ n - 2 ^ (64 - n) := by
      rw [Nat.sub_mul, one_mul, Nat.mul_comm]
    have h2 : (1 : Nat) ≤ 2 ^ n := Nat.one_le_two_pow
    have h3 : (2 : Nat) ^ (64 - n) ≤ 2 ^ (64 - n) * 2 ^ n :=
      Nat.le_mul_of_pos_right _ (by omega)
    omega
  rw [hdecomp, Nat.add_mul_div_right _ _ hpos, Nat.div_eq_of_lt (by omega)]
  omega

/-- Shared arithmetic content of the divisibility path:
`m = (2 - m*d0)`-refined inverse of the odd part, masked to `n` bits,
really is the modular inverse: `d0 * m ≡ 1 (mod 2^n)`, and `m` is odd. -/
lemma udivisible_m_spec (n : Nat) (c : Int) (hn1 : 0 < n) (hn64 : n ≤ 64)
    (hok : udivisibleOK n c = true) :
    ((uresidue n c >>> trailingZeros64 (uresidue n c)) * (udivisible n c).m) % 2 ^ n = 1 ∧
    (udivisible n c).m % 2 = 1 := by
  have hok' : umagicOK n c = true := hok
  obtain ⟨hd0, _⟩ := umagicOK_unpack hok'
  obtain ⟨hodd, _⟩ :=
    trailingZeros64_spec (uresidue n c) hd0 (uresidue_lt_two_pow_64 n c hn64)
  set d0 := uresidue n c >>> trailingZeros64 (uresidue n c) with hd0def
  set m5 := newtonStep d0 (newtonStep d0 (newtonStep d0 (newtonStep d0
    (newtonStep d0 d0)))) with hm5
  have hm : (udivisible n c).m = m5 &&& ((2 ^ 64 - 1) >>> (64 - n)) := rfl
  have hmask : (2 ^ 64 - 1) >>> (64 - n) = 2 ^ n - 1 := mask_eq n hn64
  have hmmod : (udivisible n c).m = m5 % 2 ^ n := by
    rw [hm, hmask, Nat.and_pow_two_sub_one_eq_mod]
  have hdvd64 : (2 : Int) ^ 64 ∣ (m5 : Int) * (d0 : Int) - 1 := newton_five_steps d0 hodd
  clear_value d0 m5
  have hdvdn : ((2 ^ n : Nat) : Int) ∣ ((m5 * d0 : Nat) : Int) - ((1 : Nat) : Int) := by
    have hcast : ((2 ^ n : Nat) : Int) = 2 ^ n := by push_cast; ring
    have hpk : ((2 : Int) ^ n) ∣ (2 : Int) ^ 64 := pow_dvd_pow 2 hn64
    rw [hcast]
    have : ((m5 * d0 : Nat) : Int) - ((1 : Nat) : Int) = (m5 : Int) * (d0 : Int) - 1 := by
      push_cast
      ring
    rw [this]
    exact dvd_trans hpk hdvd64
  have hmodeq : 1 ≡ m5 * d0 [MOD 2 ^ n] := Nat.modEq_iff_dvd.2 hdvdn
  have h2n : 2 ≤ 2 ^ n := by
    calc (2 : Nat) = 2 ^ 1 := (pow_one 2).symm
      _ ≤ 2 ^ n := Nat.pow_le_pow_right two_pos hn1
  have hinv : (m5 * d0) % 2 ^ n = 1 := by
    have h := hmodeq.symm
    unfold Nat.ModEq at h
    rw [h]
    exact Nat.mod_eq_of_lt (by omega)
  constructor
  · have hstep1 : d0 * (m5 % 2 ^ n) % 2 ^ n = d0 * m5 % 2 ^ n :=
      Nat.ModEq.mul_left d0 (Nat.mod_modEq m5 (2 ^ n))
    rw [hmmod, hstep1, Nat.mul_comm]
    exact hinv
  · rw [hmmod]
    have h2dvd : (2 : Nat) ∣ 2 ^ n := dvd_pow_self 2 (by omega)
    have hm2 : m5 % 2 ^ n % 2 = m5 % 2 := Nat.mod_mod_of_dvd _ h2dvd
    rw [hm2]
    have hmul : (m5 * d0) % 2 = 1 := by
      have := Nat.mod_mod_of_dvd (m5 * d0) h2dvd
      omega
    have hsplit : (m5 * d0) % 2 = (m5 % 2) * (d0 % 2) % 2 := Nat.mul_mod m5 d0 2
    rw [hodd, mul_one] at hsplit
    omega

/-- C8: for every supported width `n` and constant `c` accepted by
`udivisibleOK`, with `d0` the odd part of the `n`-bit residue, the
inverse returned by `udivisible` satisfies `(d0 * m) mod 2^n = 1` and
is odd, and it is produced by exactly five Newton steps
`m = m * (2 - m*d0)` in wrap-around 64-bit arithmetic from the seed
`m = d0`, masked to `n` bits, the same iteration count for every
width. -/
theorem udivisible_inverse_newton (n : Nat) (c : Int)
    (hn : n = 8 ∨ n = 16 ∨ n = 32 ∨ n = 64)
    (hok : udivisibleOK n c = true) :
    ((uresidue n c >>> trailingZeros64 (uresidue n c)) * (udivisible n c).m) % 2 ^ n = 1 ∧
    (udivisible n c).m % 2 = 1 ∧
    (udivisible n c).m =
      (newtonStep (uresidue n c >>> trailingZeros64 (uresidue n c)))^[5]
        (uresidue n c >>> trailingZeros64 (uresidue n c)) &&&
        ((2 ^ 64 - 1) >>> (64 - n)) := by
  have hn1 : 0 < n := by rcases hn with rfl | rfl | rfl | rfl <;> norm_num
  have hn64 : n ≤ 64 := by rcases hn with rfl | rfl | rfl | rfl <;> norm_num
  obtain ⟨h1, h2⟩ := udivisible_m_spec n c hn1 hn64 hok
  exact ⟨h1, h2, rfl⟩

lemma two_pow_sub_one_div {a b : Nat} (h : b ≤ a) :
    (2 ^ a - 1) / 2 ^ b = 2 ^ (a - b) - 1 := by
  have hsplit : (2 : Nat) ^ a = 2 ^ b * 2 ^ (a - b) := by
    rw [← pow_add]
    congr 1
    omega
  have hpos : 0 < (2 : Nat) ^ b := pow_pos two_pos _
  have h1 : (1 : Nat) ≤ 2 ^ (a - b) := Nat.one_le_two_pow
  have hdecomp : 2 ^ a - 1 = (2 ^ b - 1) + (2 ^ (a - b) - 1) * 2 ^ b := by
    have h2 : (2 ^ (a - b) - 1) * 2 ^ b = 2 ^ b * 2 ^ (a - b) - 2 ^ b := by
      rw [Nat.sub_mul, one_mul, Nat.mul_comm]
    have h3 : (2 : Nat) ^ b ≤ 2 ^ b * 2 ^ (a - b) :=
      Nat.le_mul_of_pos_right _ (by omega)
    omega
  rw [hdecomp, Nat.add_mul_div_right _ _ hpos, Nat.div_eq_of_lt (by omega)]
  omega

/-- C3: for every supported width `n` and constant `c` accepted by
`udivisibleOK`, with `d` the `n`-bit residue and
`{k, m, max} = udivisible n c`, every `x < 2^n` satisfies
`x mod d = 0  ↔  RotateRight_n((x * m) mod 2^n, k) ≤ max`. -/
theorem udivisible_divisibility_iff (n : Nat) (c : Int) (x : Nat)
    (hn : n = 8 ∨ n = 16 ∨ n = 32 ∨ n = 64)
    (hok : udivisibleOK n c = true) (hx : x < 2 ^ n) :
    (x % uresidue n c = 0) ↔
      rotateRight n ((udivisible n c).k).toNat ((x * (udivisible n c).m) % 2 ^ n)
        ≤ (udivisible n c).max := by
  have hn1 : 0 < n := by rcases hn with rfl | rfl | rfl | rfl <;> norm_num
  have hn64 : n ≤ 64 := by rcases hn with rfl | rfl | rfl | rfl <;> norm_num
  have hok' : umagicOK n c = true := hok
  obtain ⟨hd0ne, hnp⟩ := umagicOK_unpack hok'
  set d := uresidue n c with hddef
  have hdn : d < 2 ^ n := uresidue_lt n c hn64
  have hd64 : d < 2 ^ 64 := uresidue_lt_two_pow_64 n c hn64
  obtain ⟨hodd, hfact⟩ := trailingZeros64_spec d hd0ne hd64
  set k := trailingZeros64 d with hkdef
  set d0 := d >>> k with hd0def
  obtain ⟨hminv, hmodd⟩ := udivisible_m_spec n c hn1 hn64 hok
  rw [← hddef, ← hkdef, ← hd0def] at hminv
  set m := (udivisible n c).m with hmdef
  have hkfield : ((udivisible n c).k).toNat = k := by
    have h0 : (udivisible n c).k = (k : Int) := rfl
    rw [h0, Int.toNat_natCast]
  have hmaxfield : (udivisible n c).max = (2 ^ n - 1) / d := by
    have h0 : (udivisible n c).max = ((2 ^ 64 - 1) >>> (64 - n)) / d := rfl
    rw [h0, mask_eq n hn64]
  clear_value m d0 k d
  have hd0pos : 0 < d0 := by
    rcases Nat.eq_zero_or_pos d0 with h0 | h0
    · rw [h0, Nat.mul_zero] at hfact
      exact absurd hfact hd0ne
    · exact h0
  have hd0ne1 : d0 ≠ 1 := by
    intro h1
    apply hnp k
    rw [hfact, h1, mul_one]
  have hd03 : 3 ≤ d0 := by omega
  have hdpos : 0 < d := by omega
  have hkn : k < n := by
    have h1 : 2 ^ k ≤ d := by
      calc 2 ^ k ≤ 2 ^ k * d0 := Nat.le_mul_of_pos_right _ hd0pos
        _ = d := hfact.symm
    have h2 : (2 : Nat) ^ k < 2 ^ n := lt_of_le_of_lt h1 hdn
    exact (Nat.pow_lt_pow_iff_right one_lt_two).1 h2
  have hmax2 : (2 ^ n - 1) / d = (2 ^ (n - k) - 1) / d0 := by
    calc (2 ^ n - 1) / d = (2 ^ n - 1) / (2 ^ k * d0) := by rw [← hfact]
      _ = (2 ^ n - 1) / 2 ^ k / d0 := (Nat.div_div_eq_div_mul _ _ _).symm
      _ = (2 ^ (n - k) - 1) / d0 := by rw [two_pow_sub_one_div hkn.le]
  have h12n : 1 < 2 ^ n := by
    calc (1 : Nat) < 2 ^ 1 := by norm_num
      _ ≤ 2 ^ n := Nat.pow_le_pow_right two_pos hn1
  have h1n : d0 * m ≡ 1 [MOD 2 ^ n] := by
    show d0 * m % 2 ^ n = 1 % 2 ^ n
    rw [hminv, Nat.mod_eq_of_lt h12n]
  have hinv_nk : d0 * m ≡ 1 [MOD 2 ^ (n - k)] :=
    Nat.ModEq.of_dvd (pow_dvd_pow 2 (by omega)) h1n
  have h2nk_pos : 0 < (2 : Nat) ^ (n - k) := pow_pos two_pos _
  have hmaxlt : (2 ^ (n - k) - 1) / d0 < 2 ^ (n - k) :=
    lt_of_le_of_lt (Nat.div_le_self _ _) (by omega)
  set v := x * m % 2 ^ n with hvdef
  rw [hkfield, hmaxfield, hmax2]
  constructor
  · intro hdvd
    obtain ⟨q, hq⟩ := Nat.dvd_of_mod_eq_zero hdvd
    have hxm : x * m ≡ q * 2 ^ k [MOD 2 ^ n] := by
      calc x * m = q * 2 ^ k * (d0 * m) := by rw [hq, hfact]; ring
        _ ≡ q * 2 ^ k * 1 [MOD 2 ^ n] := Nat.ModEq.mul_left _ h1n
        _ = q * 2 ^ k := by ring
    have hqk_lt : q * 2 ^ k < 2 ^ n := by
      have h1 : q * 2 ^ k ≤ x := by
        calc q * 2 ^ k ≤ q * 2 ^ k * d0 := Nat.le_mul_of_pos_right _ hd0pos
          _ = x := by rw [hq, hfact]; ring
      omega
    have hv : v = q * 2 ^ k := by
      rw [hvdef]
      have h2 : x * m % 2 ^ n = (q * 2 ^ k) % 2 ^ n := hxm
      rw [h2]
      exact Nat.mod_eq_of_lt hqk_lt
    have hrot : rotateRight n k v = q := by
      rw [hv]
      unfold rotateRight
      rw [Nat.mul_div_cancel q (pow_pos two_pos k), Nat.mul_mod_left]
      simp
    rw [hrot]
    have hqx : q = x / d := by
      rw [hq, Nat.mul_comm, Nat.mul_div_cancel q hdpos]
    have hle : q ≤ (2 ^ n - 1) / d := by
      rw [hqx]
      exact Nat.div_le_div_right (by omega)
    rw [hmax2] at hle
    exact hle
  · intro hrot
    by_cases hvk : v % 2 ^ k = 0
    · have hcop : Nat.Coprime (2 ^ k) m := Nat.Coprime.pow_left k
        ((Nat.Prime.coprime_iff_not_dvd Nat.prime_two).2 (by
          intro hdvd2
          have h4 := Nat.mod_eq_zero_of_dvd hdvd2
          omega))
      have hxm_mod : x * m % 2 ^ k = v % 2 ^ k := by
        have h1 : v ≡ x * m [MOD 2 ^ n] := Nat.mod_modEq _ _
        have h2 : v ≡ x * m [MOD 2 ^ k] := Nat.ModEq.of_dvd (pow_dvd_pow 2 hkn.le) h1
        exact h2.symm
      have hdvdx : 2 ^ k ∣ x := by
        have h3 : 2 ^ k ∣ x * m := Nat.dvd_of_mod_eq_zero (by omega)
        exact hcop.dvd_of_dvd_mul_right h3
      obtain ⟨w, hw⟩ := hdvdx
      have hwlt : w < 2 ^ (n - k) := by
        have hsplit : (2 : Nat) ^ n = 2 ^ k * 2 ^ (n - k) := by
          rw [← pow_add]
          congr 1
          omega
        have h5 := hx
        rw [hw, hsplit] at h5
        exact lt_of_mul_lt_mul_left h5 (Nat.zero_le _)
      have hvdiv : v / 2 ^ k = w * m % 2 ^ (n - k) := by
        rw [hvdef, hw]
        have hsplit : (2 : Nat) ^ n = 2 ^ (n - k) * 2 ^ k := by
          rw [← pow_add]
          congr 1
          omega
        have harr : 2 ^ k * w * m = w * m * 2 ^ k := by ring
        rw [hsplit, harr, Nat.mul_mod_mul_right]
        exact Nat.mul_div_cancel _ (pow_pos two_pos k)
      have hrot2 : rotateRight n k v = w * m % 2 ^ (n - k) := by
        unfold rotateRight
        rw [hvk, hvdiv]
        simp
      rw [hrot2] at hrot
      have hud0 : w * m % 2 ^ (n - k) * d0 ≤ 2 ^ (n - k) - 1 :=
        (Nat.le_div_iff_mul_le hd0pos).1 hrot
      have hcong : w * m % 2 ^ (n - k) * d0 ≡ w [MOD 2 ^ (n - k)] := by
        calc w * m % 2 ^ (n - k) * d0 ≡ w * m * d0 [MOD 2 ^ (n - k)] :=
            Nat.ModEq.mul_right d0 (Nat.mod_modEq _ _)
          _ = w * (d0 * m) := by ring
          _ ≡ w * 1 [MOD 2 ^ (n - k)] := Nat.ModEq.mul_left w hinv_nk
          _ = w := by ring
      have heq : w * m % 2 ^ (n - k) * d0 = w :=
        hcong.eq_of_lt_of_lt (by omega) hwlt
      have hd0w : d0 ∣ w := dvd_of_mul_left_eq _ heq
      have hdvd : d ∣ x := by
        rw [hw, hfact]
        exact Nat.mul_dvd_mul_left (2 ^ k) hd0w
      exact Nat.mod_eq_zero_of_dvd hdvd
    · exfalso
      have h1 : 2 ^ (n - k) ≤ rotateRight n k v := by
        unfold rotateRight
        have h2 : 1 ≤ v % 2 ^ k := by omega
        calc (2 : Nat) ^ (n - k) = 1 * 2 ^ (n - k) := (one_mul _).symm
          _ ≤ v % 2 ^ k * 2 ^ (n - k) := Nat.mul_le_mul_right _ h2
          _ ≤ v / 2 ^ k + v % 2 ^ k * 2 ^ (n - k) := Nat.le_add_left _ _
      omega

theorem udivisible_divisibility_iff_witness :
    udivisibleOK 8 6 = true ∧ (45 : Nat) < 2 ^ 8 ∧
    ((45 % uresidue 8 6 = 0) ↔
      rotateRight 8 ((udivisible 8 6).k).toNat ((45 * (udivisible 8 6).m) % 2 ^ 8)
        ≤ (udivisible 8 6).max) :=
  ⟨by decide, by decide,
    udivisible_divisibility_iff 8 6 45 (Or.inl rfl) (by decide) (by decide)⟩

theorem udivisible_inverse_newton_witness :
    udivisibleOK 8 6 = true ∧
    ((uresidue 8 6 >>> trailingZeros64 (uresidue 8 6)) * (udivisible 8 6).m) % 2 ^ 8 = 1 ∧
    (udivisible 8 6).m % 2 = 1 ∧
    (udivisible 8 6).m =
      (newtonStep (uresidue 8 6 >>> trailingZeros64 (uresidue 8 6)))^[5]
        (uresidue 8 6 >>> trailingZeros64 (uresidue 8 6)) &&&
        ((2 ^ 64 - 1) >>> (64 - 8)) :=
  ⟨by decide, udivisible_inverse_newton 8 6 (Or.inl rfl) (by decide)⟩

end Magic
